import Mathlib

/-!
Verification of the `hex_fmt` crate: shortened hexadecimal formatting of byte
slices (`src/lib.rs`).

The embedding models bytes as `Fin 256` (Rust `u8`), rendered output as
`List Char`, and the `Formatter`'s optional precision as `Option Nat`
(`f.precision().unwrap_or(DEFAULT_PRECISION)`).  Rust operations that can
panic — slicing with an out-of-range bound, indexing, `usize` subtraction
underflow — are modelled as `Option`-returning helpers, so `fmt` returns
`Option (List Char)`: `none` marks a panic, `some s` a successful render.
-/

namespace HexFmt

/-- The `Case` enum from `src/lib.rs`: hex digit case selector. -/
inductive Case where
  | upper
  | lower
deriving DecidableEq

/-- `const DEFAULT_PRECISION: usize = 10`. -/
def DEFAULT_PRECISION : Nat := 10

/-- `const ELLIPSIS: &str = ".."`, as its character sequence. -/
def ELLIPSIS : List Char := ['.', '.']

/-- One hex digit, as printed by Rust's hex formatting of a value `d < 16`:
digits `0`-`9` are code points `48 + d`; letters are `a`-`f` (code point
`87 + d`) in lower case and `A`-`F` (code point `55 + d`) in upper case. -/
def hexChar (cs : Case) (d : Nat) : Char :=
  if d < 10 then Char.ofNat (48 + d)
  else
    match cs with
    | Case.upper => Char.ofNat (55 + d)
    | Case.lower => Char.ofNat (87 + d)

/-- `fmt_byte`: `write!(f, "{:02x}", byte)` (or `{:02X}`): a `u8` always
prints as exactly two hex digits, high nibble then low nibble. -/
def fmt_byte (cs : Case) (b : Fin 256) : List Char :=
  [hexChar cs (b.val / 16), hexChar cs (b.val % 16)]

/-- `fmt_digit`: `write!(f, "{:1x}", digit)` (or `{:1X}`): a value `< 16`
prints as exactly one hex digit. -/
def fmt_digit (cs : Case) (d : Nat) : List Char :=
  [hexChar cs d]

/-- Rust slice `&bytes[..k]`: panics (`none`) when `k > bytes.len()`. -/
def sliceTo (bytes : List (Fin 256)) (k : Nat) : Option (List (Fin 256)) :=
  if k ≤ bytes.length then some (bytes.take k) else none

/-- Rust slice `&bytes[k..]`: panics (`none`) when `k > bytes.len()`. -/
def sliceFrom (bytes : List (Fin 256)) (k : Nat) : Option (List (Fin 256)) :=
  if k ≤ bytes.length then some (bytes.drop k) else none

/-- Rust indexing `bytes[i]`: panics (`none`) when out of range. -/
def index (bytes : List (Fin 256)) (i : Nat) : Option (Fin 256) :=
  bytes.get? i

/-- Rust `usize` subtraction `a - b`: panics (`none`) on underflow. -/
def usizeSub (a b : Nat) : Option Nat :=
  if b ≤ a then some (a - b) else none

/-- The core routine `fn fmt(bytes: &[u8], f: &mut Formatter, case: Case)` of
`src/lib.rs`, lines 102-144.  `precision` is `f.precision()`; branch 1 renders
everything, branch 2 truncates the ellipsis to `precision` characters
(`write!(f, "{:.*}", precision, ELLIPSIS)`), branch 3 elides the middle.
`left & 1 == 1` is written as `left % 2 = 1`, `bytes.len() - right / 2 - 1`
as a single checked subtraction of `right / 2 + 1` (the two `usize`
subtractions underflow exactly when `right / 2 + 1 > bytes.len()`). -/
def fmt (bytes : List (Fin 256)) (precision : Option Nat) (cs : Case) :
    Option (List Char) :=
  let p := precision.getD DEFAULT_PRECISION
  -- If the array is short enough, don't shorten it.
  if 2 * bytes.length ≤ p then
    some ((bytes.map (fmt_byte cs)).flatten)
  -- If the bytes don't fit and the ellipsis fills the maximum width, print only that.
  else if p ≤ ELLIPSIS.length then
    some (ELLIPSIS.take p)
  else
    -- Compute the number of hex digits to display left and right of the ellipsis.
    let num_hex_digits := p - ELLIPSIS.length
    let right := num_hex_digits / 2
    let left := num_hex_digits - right
    -- Print the bytes on the left.
    (sliceTo bytes (left / 2)).bind fun leftBytes =>
      -- If odd, print only the first hex digit of the next byte.
      (if left % 2 = 1 then
          (index bytes (left / 2)).map fun b => fmt_digit cs (b.val >>> 4)
        else some []).bind fun leftNib =>
        -- If `right` is odd, print the second hex digit of a byte.
        (if right % 2 = 1 then
            (usizeSub bytes.length (right / 2 + 1)).bind fun i =>
              (index bytes i).map fun b => fmt_digit cs (b.val &&& 0x0f)
          else some []).bind fun rightNib =>
          -- Print the remaining bytes on the right.
          (usizeSub bytes.length (right / 2)).bind fun start =>
            (sliceFrom bytes start).map fun rightBytes =>
              (leftBytes.map (fmt_byte cs)).flatten ++ leftNib ++ ELLIPSIS
                ++ rightNib ++ (rightBytes.map (fmt_byte cs)).flatten

/-- The output of `fmt`'s general elision branch, in closed form: the first
`left / 2` bytes in full, the high nibble of `bytes[left / 2]` when `left` is
odd, the ellipsis, the low nibble of the byte `right / 2 + 1` positions from
the end when `right` is odd, and the last `right / 2` bytes in full, where
`right = (p - 2) / 2` and `left = (p - 2) - right`. -/
def elideChars (bytes : List (Fin 256)) (p : Nat) (cs : Case) : List Char :=
  let right := (p - 2) / 2
  let left := (p - 2) - right
  ((bytes.take (left / 2)).map (fmt_byte cs)).flatten
    ++ (if left % 2 = 1 then [hexChar cs ((bytes.getD (left / 2) 0).val / 16)] else [])
    ++ ELLIPSIS
    ++ (if right % 2 = 1 then
          [hexChar cs ((bytes.getD (bytes.length - right / 2 - 1) 0).val % 16)]
        else [])
    ++ ((bytes.drop (bytes.length - right / 2)).map (fmt_byte cs)).flatten

/-- Total version of `fmt` (justified below: `fmt` never returns `none`). -/
def fmtD (bytes : List (Fin 256)) (precision : Option Nat) (cs : Case) :
    List Char :=
  (fmt bytes precision cs).getD []

/-- The tail of a list rendering: for each remaining element, the separator
`", "` followed by that element's rendering.  Both `HexList` impls format
every element with the same `Formatter` `f`, so the element calls see the
caller's precision. -/
def listRest (cs : Case) (p : Option Nat) :
    List (List (Fin 256)) → Option (List Char)
  | [] => some []
  | b :: rest =>
    (fmt b p cs).bind fun e =>
      (listRest cs p rest).map fun m => ',' :: ' ' :: (e ++ m)

/-- `LowerHex for HexList` (lines 74-82): `f.debug_list().entries(...)` in
non-alternate mode writes `[`, the entries separated by `", "` — each entry
formatted with the same `Formatter` via `Debug`/`LowerHex` of `HexFmt`, i.e.
`fmt` with `Case.lower` and the caller's precision — then `]`. -/
def hexListLower (ls : List (List (Fin 256))) (p : Option Nat) :
    Option (List Char) :=
  match ls with
  | [] => some ['[', ']']
  | b :: rest =>
    (fmt b p Case.lower).bind fun e =>
      (listRest Case.lower p rest).map fun m => '[' :: (e ++ m) ++ [']']

/-- `UpperHex for HexList` (lines 84-100): writes `[`, the first element if
any, then `", "` and the element for each remaining one, then `]`; every
element goes through `UpperHex::fmt(&HexFmt(item), f)` with the same `f`. -/
def hexListUpper (ls : List (List (Fin 256))) (p : Option Nat) :
    Option (List Char) :=
  match ls with
  | [] => some ['[', ']']
  | b :: rest =>
    (fmt b p Case.upper).bind fun e =>
      (listRest Case.upper p rest).map fun m => '[' :: (e ++ m) ++ [']']

/-- Is the character an ASCII hex digit (either case)? -/
def isHexDigitChar (c : Char) : Bool :=
  ('0' ≤ c && c ≤ '9') || ('a' ≤ c && c ≤ 'f') || ('A' ≤ c && c ≤ 'F')

/-- Does the list begin with the given pattern? -/
def startsWith : List Char → List Char → Bool
  | [], _ => true
  | _ :: _, [] => false
  | a :: pa, b :: lb => a == b && startsWith pa lb

/-- Number of (possibly overlapping) occurrences of `pat` as a contiguous
substring: one per suffix position at which `pat` begins. -/
def countOcc (pat : List Char) : List Char → Nat
  | [] => if startsWith pat [] then 1 else 0
  | a :: l => (if startsWith pat (a :: l) then 1 else 0) + countOcc pat l

/-- Separator-joined renderings per the spec's collection contract:
elements joined by `", "`, no trailing separator. -/
def joinComma : List (List Char) → List Char
  | [] => []
  | [e] => e
  | e :: rest => e ++ ',' :: ' ' :: joinComma rest

lemma ellipsis_length : ELLIPSIS.length = 2 := rfl

lemma fmt_resolve (bytes : List (Fin 256)) (p : Option Nat) (cs : Case) :
    fmt bytes p cs = fmt bytes (some (p.getD DEFAULT_PRECISION)) cs := by
  cases p <;> rfl

lemma get?_eq_some_getD (l : List (Fin 256)) (i : Nat) (h : i < l.length) :
    l.get? i = some (l.getD i 0) := by
  rw [List.getD_eq_getElem?_getD, List.get?_eq_getElem?]
  cases hx : l[i]? with
  | none =>
    rw [List.getElem?_eq_none_iff] at hx
    omega
  | some v => rfl

lemma shiftRight_four (b : Fin 256) : b.val >>> 4 = b.val / 16 := by
  rw [Nat.shiftRight_eq_div_pow]

lemma and_fifteen (b : Fin 256) : b.val &&& 0x0f = b.val % 16 := by
  have := Nat.and_pow_two_sub_one_eq_mod b.val 4
  simpa using this

/-- The elision branch's bind chain, evaluated under its bounds facts. -/
lemma elide_chain (bytes : List (Fin 256)) (left right : Nat) (cs : Case)
    (hL : left / 2 < bytes.length) (hR : right / 2 + 1 ≤ bytes.length) :
    ((sliceTo bytes (left / 2)).bind fun leftBytes =>
      (if left % 2 = 1 then
          (index bytes (left / 2)).map fun b => fmt_digit cs (b.val >>> 4)
        else some []).bind fun leftNib =>
        (if right % 2 = 1 then
            (usizeSub bytes.length (right / 2 + 1)).bind fun i =>
              (index bytes i).map fun b => fmt_digit cs (b.val &&& 0x0f)
          else some []).bind fun rightNib =>
          (usizeSub bytes.length (right / 2)).bind fun start =>
            (sliceFrom bytes start).map fun rightBytes =>
              (leftBytes.map (fmt_byte cs)).flatten ++ leftNib ++ ELLIPSIS
                ++ rightNib ++ (rightBytes.map (fmt_byte cs)).flatten)
    = some (((bytes.take (left / 2)).map (fmt_byte cs)).flatten
        ++ (if left % 2 = 1 then [hexChar cs ((bytes.getD (left / 2) 0).val / 16)] else [])
        ++ ELLIPSIS
        ++ (if right % 2 = 1 then
              [hexChar cs ((bytes.getD (bytes.length - right / 2 - 1) 0).val % 16)]
            else [])
        ++ ((bytes.drop (bytes.length - right / 2)).map (fmt_byte cs)).flatten) := by
  have e1 : sliceTo bytes (left / 2) = some (bytes.take (left / 2)) := by
    simp only [sliceTo]
    rw [if_pos (Nat.le_of_lt hL)]
  have e2 : index bytes (left / 2) = some (bytes.getD (left / 2) 0) :=
    get?_eq_some_getD _ _ hL
  have e3 : usizeSub bytes.length (right / 2 + 1)
      = some (bytes.length - right / 2 - 1) := by
    simp only [usizeSub]
    rw [if_pos hR]
    exact congrArg some (by omega)
  have e4 : index bytes (bytes.length - right / 2 - 1)
      = some (bytes.getD (bytes.length - right / 2 - 1) 0) :=
    get?_eq_some_getD _ _ (by omega)
  have e5 : usizeSub bytes.length (right / 2)
      = some (bytes.length - right / 2) := by
    simp only [usizeSub]
    rw [if_pos (by omega)]
  have e6 : sliceFrom bytes (bytes.length - right / 2)
      = some (bytes.drop (bytes.length - right / 2)) := by
    simp only [sliceFrom]
    rw [if_pos (by omega)]
  rw [e1, Option.some_bind]
  by_cases hl : left % 2 = 1 <;> by_cases hr : right % 2 = 1 <;>
    simp [hl, hr, e2, e3, e4, e5, e6, fmt_digit, shiftRight_four, and_fifteen]

/-- Master lemma: in the general elision branch `2 < p < 2 * len`, every
bounds check in `fmt` passes and the output is the closed form
`elideChars`. -/
lemma fmt_elide (bytes : List (Fin 256)) (p : Nat) (cs : Case)
    (h2 : 2 < p) (h1 : p < 2 * bytes.length) :
    fmt bytes (some p) cs = some (elideChars bytes p cs) := by
  have hb1 : ¬ (2 * bytes.length ≤ p) := by omega
  have hb2 : ¬ (p ≤ ELLIPSIS.length) := by
    rw [ellipsis_length]
    omega
  have hL : ((p - ELLIPSIS.length) - (p - ELLIPSIS.length) / 2) / 2
      < bytes.length := by
    rw [ellipsis_length]
    omega
  have hR : ((p - ELLIPSIS.length) / 2) / 2 + 1 ≤ bytes.length := by
    rw [ellipsis_length]
    omega
  have key := elide_chain bytes ((p - ELLIPSIS.length) - (p - ELLIPSIS.length) / 2)
    ((p - ELLIPSIS.length) / 2) cs hL hR
  simp only [fmt, Option.getD_some]
  rw [if_neg hb1, if_neg hb2, key]
  simp only [elideChars, ellipsis_length]

/-- `fmt` is total: no branch ever fails a bounds check. -/
lemma fmt_isSome (bytes : List (Fin 256)) (p : Option Nat) (cs : Case) :
    (fmt bytes p cs).isSome := by
  rw [fmt_resolve]
  set q := p.getD DEFAULT_PRECISION with hq
  by_cases hfull : 2 * bytes.length ≤ q
  · simp [fmt, if_pos hfull]
  · by_cases hell : q ≤ 2
    · simp [fmt, if_neg hfull, ellipsis_length, hell]
    · rw [fmt_elide bytes q cs (by omega) (by omega)]
      rfl

lemma fmt_eq_fmtD (bytes : List (Fin 256)) (p : Option Nat) (cs : Case) :
    fmt bytes p cs = some (fmtD bytes p cs) := by
  have h := fmt_isSome bytes p cs
  cases hx : fmt bytes p cs with
  | none => rw [hx] at h; simp at h
  | some v => simp [fmtD, hx]

lemma isHex_hexChar (cs : Case) (d : Nat) (h : d < 16) :
    isHexDigitChar (hexChar cs d) = true := by
  cases cs with
  | upper =>
    exact (by decide :
      ∀ d : Fin 16, isHexDigitChar (hexChar Case.upper d.val) = true) ⟨d, h⟩
  | lower =>
    exact (by decide :
      ∀ d : Fin 16, isHexDigitChar (hexChar Case.lower d.val) = true) ⟨d, h⟩

lemma isHex_ne_dot {c : Char} (h : isHexDigitChar c = true) : c ≠ '.' := by
  intro he
  rw [he] at h
  exact absurd h (by decide)

lemma mem_flatten_map_isHex {c : Char} {cs : Case} {l : List (Fin 256)}
    (h : c ∈ (l.map (fmt_byte cs)).flatten) : isHexDigitChar c = true := by
  rw [List.mem_flatten] at h
  obtain ⟨ch, hch, hc⟩ := h
  rw [List.mem_map] at hch
  obtain ⟨b, _, rfl⟩ := hch
  have hb := b.isLt
  simp only [fmt_byte, List.mem_cons, List.not_mem_nil, or_false] at hc
  rcases hc with rfl | rfl
  · exact isHex_hexChar _ _ (by omega)
  · exact isHex_hexChar _ _ (by omega)

lemma flatten_map_length (cs : Case) (l : List (Fin 256)) :
    ((l.map (fmt_byte cs)).flatten).length = 2 * l.length := by
  induction l with
  | nil => rfl
  | cons a t ih =>
    simp only [List.map_cons, List.flatten_cons, List.length_append, ih,
      fmt_byte, List.length_cons, List.length_nil, List.length_cons]
    omega

lemma startsWith_dot_head_false {pa l : List Char} (h : '.' ∉ l) :
    startsWith ('.' :: pa) l = false := by
  cases l with
  | nil => rfl
  | cons a t =>
    have ha : ('.' == a) = false := by
      apply beq_eq_false_iff_ne.mpr
      intro he
      exact h (by rw [he]; exact List.mem_cons_self a t)
    simp [startsWith, ha]

lemma countOcc_eq_zero {l : List Char} (h : '.' ∉ l) :
    countOcc ELLIPSIS l = 0 := by
  induction l with
  | nil => rfl
  | cons a t ih =>
    have h1 : '.' ∉ t := fun hx => h (List.mem_cons_of_mem a hx)
    have hs : startsWith ELLIPSIS (a :: t) = false := startsWith_dot_head_false h
    simp [countOcc, hs, ih h1]

lemma countOcc_singleton (A B : List Char) (hA : '.' ∉ A) (hB : '.' ∉ B) :
    countOcc ELLIPSIS (A ++ ELLIPSIS ++ B) = 1 := by
  induction A with
  | nil =>
    have hsB : startsWith ('.' :: ([] : List Char)) B = false :=
      startsWith_dot_head_false hB
    have hz := countOcc_eq_zero hB
    simp only [ELLIPSIS] at hz ⊢
    simpa [countOcc, startsWith, hsB] using hz
  | cons a A ih =>
    have ha : ('.' == a) = false := by
      apply beq_eq_false_iff_ne.mpr
      intro he
      exact hA (by rw [he]; exact List.mem_cons_self a A)
    have h1 : '.' ∉ A := fun hx => hA (List.mem_cons_of_mem a hx)
    have hs : startsWith ELLIPSIS (a :: (A ++ (ELLIPSIS ++ B))) = false := by
      simp [ELLIPSIS, startsWith, ha]
    have hrec := ih h1
    simp only [List.cons_append, List.append_assoc] at hrec ⊢
    simp [countOcc, hs, hrec]

lemma toUpper_hexChar : ∀ d : Fin 16,
    Char.toUpper (hexChar Case.lower d.val) = hexChar Case.upper d.val := by
  decide

lemma map_toUpper_fmt_byte (b : Fin 256) :
    (fmt_byte Case.lower b).map Char.toUpper = fmt_byte Case.upper b := by
  have hb := b.isLt
  simp only [fmt_byte, List.map_cons, List.map_nil, List.cons.injEq, and_true]
  exact ⟨toUpper_hexChar ⟨b.val / 16, by omega⟩,
    toUpper_hexChar ⟨b.val % 16, by omega⟩⟩

lemma map_toUpper_flatten (l : List (Fin 256)) :
    ((l.map (fmt_byte Case.lower)).flatten).map Char.toUpper
      = (l.map (fmt_byte Case.upper)).flatten := by
  rw [List.map_flatten, List.map_map]
  congr 1
  exact List.map_congr_left fun b _ => map_toUpper_fmt_byte b

/-- The tail of a rendered list, in total closed form. -/
def restChain (p : Option Nat) (cs : Case) : List (List (Fin 256)) → List Char
  | [] => []
  | b :: t => ',' :: ' ' :: (fmtD b p cs ++ restChain p cs t)

lemma listRest_eq (cs : Case) (p : Option Nat) (t : List (List (Fin 256))) :
    listRest cs p t = some (restChain p cs t) := by
  induction t with
  | nil => rfl
  | cons b t ih => simp [listRest, restChain, fmt_eq_fmtD, ih]

lemma chain_join (p : Option Nat) (cs : Case) (b : List (Fin 256))
    (t : List (List (Fin 256))) :
    fmtD b p cs ++ restChain p cs t
      = joinComma ((b :: t).map fun x => fmtD x p cs) := by
  induction t generalizing b with
  | nil => simp [restChain, joinComma]
  | cons c t ih =>
    have h := ih c
    simp only [List.map_cons] at h ⊢
    simp [restChain, joinComma, ← h]

lemma hexListLower_eq (ls : List (List (Fin 256))) (p : Option Nat) :
    hexListLower ls p
      = some ('[' :: joinComma (ls.map fun b => fmtD b p Case.lower) ++ [']']) := by
  cases ls with
  | nil => rfl
  | cons b t =>
    have h := chain_join p Case.lower b t
    simp only [List.map_cons] at h ⊢
    simp [hexListLower, fmt_eq_fmtD, listRest_eq, ← h, List.append_assoc]

lemma hexListUpper_eq (ls : List (List (Fin 256))) (p : Option Nat) :
    hexListUpper ls p
      = some ('[' :: joinComma (ls.map fun b => fmtD b p Case.upper) ++ [']']) := by
  cases ls with
  | nil => rfl
  | cons b t =>
    have h := chain_join p Case.upper b t
    simp only [List.map_cons] at h ⊢
    simp [hexListUpper, fmt_eq_fmtD, listRest_eq, ← h, List.append_assoc]

lemma restChain_mem (p : Option Nat) (cs : Case) {b : List (Fin 256)}
    {t : List (List (Fin 256))} (h : b ∈ t) :
    ∃ pre post, restChain p cs t = pre ++ fmtD b p cs ++ post := by
  induction t with
  | nil => cases h
  | cons c t ih =>
    rcases List.mem_cons.mp h with rfl | h2
    · exact ⟨[',', ' '], restChain p cs t, by simp [restChain]⟩
    · obtain ⟨pre, post, hp⟩ := ih h2
      exact ⟨',' :: ' ' :: fmtD c p cs ++ pre, post, by simp [restChain, hp]⟩

/-- Decomposition of the elided output: hex digits left of the ellipsis
(`left` many), hex digits right of it (`right` many). -/
lemma elide_decomp (bytes : List (Fin 256)) (p : Nat) (cs : Case)
    (h2 : 2 < p) (h1 : p < 2 * bytes.length) :
    ∃ A B, elideChars bytes p cs = A ++ ELLIPSIS ++ B
      ∧ A.length = (p - 2) - (p - 2) / 2
      ∧ B.length = (p - 2) / 2
      ∧ (∀ c ∈ A, isHexDigitChar c = true)
      ∧ (∀ c ∈ B, isHexDigitChar c = true) := by
  refine ⟨((bytes.take (((p - 2) - (p - 2) / 2) / 2)).map (fmt_byte cs)).flatten
      ++ (if ((p - 2) - (p - 2) / 2) % 2 = 1 then
            [hexChar cs ((bytes.getD (((p - 2) - (p - 2) / 2) / 2) 0).val / 16)]
          else []),
    (if ((p - 2) / 2) % 2 = 1 then
        [hexChar cs ((bytes.getD (bytes.length - ((p - 2) / 2) / 2 - 1) 0).val % 16)]
      else [])
      ++ ((bytes.drop (bytes.length - ((p - 2) / 2) / 2)).map (fmt_byte cs)).flatten,
    ?_, ?_, ?_, ?_, ?_⟩
  · simp [elideChars, List.append_assoc]
  · simp only [List.length_append, flatten_map_length, List.length_take]
    by_cases hl : ((p - 2) - (p - 2) / 2) % 2 = 1 <;> simp [hl] <;> omega
  · simp only [List.length_append, flatten_map_length, List.length_drop]
    by_cases hr : ((p - 2) / 2) % 2 = 1 <;> simp [hr] <;> omega
  · intro c hc
    rcases List.mem_append.mp hc with hc1 | hc2
    · exact mem_flatten_map_isHex hc1
    · by_cases hl : ((p - 2) - (p - 2) / 2) % 2 = 1
      · rw [if_pos hl] at hc2
        have hb := (bytes.getD (((p - 2) - (p - 2) / 2) / 2) 0).isLt
        rcases List.mem_singleton.mp hc2 with rfl
        exact isHex_hexChar _ _ (by omega)
      · rw [if_neg hl] at hc2
        cases hc2
  · intro c hc
    rcases List.mem_append.mp hc with hc1 | hc2
    · by_cases hr : ((p - 2) / 2) % 2 = 1
      · rw [if_pos hr] at hc1
        have hb := (bytes.getD (bytes.length - ((p - 2) / 2) / 2 - 1) 0).isLt
        rcases List.mem_singleton.mp hc1 with rfl
        exact isHex_hexChar _ _ (by omega)
      · rw [if_neg hr] at hc1
        cases hc1
    · exact mem_flatten_map_isHex hc2

lemma toUpper_hexChar_lt (d : Nat) (h : d < 16) :
    Char.toUpper (hexChar Case.lower d) = hexChar Case.upper d :=
  toUpper_hexChar ⟨d, h⟩

lemma elide_toUpper (bytes : List (Fin 256)) (p : Nat) :
    (elideChars bytes p Case.lower).map Char.toUpper
      = elideChars bytes p Case.upper := by
  have hE : ELLIPSIS.map Char.toUpper = ELLIPSIS := by decide
  have hfb : (List.map Char.toUpper ∘ fmt_byte Case.lower) = fmt_byte Case.upper :=
    funext map_toUpper_fmt_byte
  have h1 := (bytes.getD (((p - 2) - (p - 2) / 2) / 2) 0).isLt
  have h2 := (bytes.getD (bytes.length - ((p - 2) / 2) / 2 - 1) 0).isLt
  have g1 := toUpper_hexChar_lt
    ((bytes.getD (((p - 2) - (p - 2) / 2) / 2) 0).val / 16) (by omega)
  have g2 := toUpper_hexChar_lt
    ((bytes.getD (bytes.length - ((p - 2) / 2) / 2 - 1) 0).val % 16) (by omega)
  simp only [List.getD_eq_getElem?_getD] at g1 g2
  simp [elideChars, apply_ite (List.map Char.toUpper), map_toUpper_flatten,
    hfb, hE, g1, g2]

lemma fmt_toUpper (bytes : List (Fin 256)) (p : Option Nat) :
    (fmt bytes p Case.lower).map (List.map Char.toUpper)
      = fmt bytes p Case.upper := by
  rw [fmt_resolve bytes p Case.lower, fmt_resolve bytes p Case.upper]
  by_cases hfull : 2 * bytes.length ≤ p.getD DEFAULT_PRECISION
  · simp only [fmt, Option.getD_some, if_pos hfull, Option.map_some']
    rw [map_toUpper_flatten]
  · by_cases hell : p.getD DEFAULT_PRECISION ≤ ELLIPSIS.length
    · simp only [fmt, Option.getD_some, if_neg hfull, if_pos hell,
        Option.map_some']
      rw [ellipsis_length] at hell
      set q := p.getD DEFAULT_PRECISION
      interval_cases q <;> decide
    · rw [ellipsis_length] at hell
      rw [fmt_elide _ _ _ (by omega) (by omega),
        fmt_elide _ _ _ (by omega) (by omega), Option.map_some']
      exact congrArg some (elide_toUpper bytes _)

lemma fmtD_toUpper (bytes : List (Fin 256)) (p : Option Nat) :
    (fmtD bytes p Case.lower).map Char.toUpper = fmtD bytes p Case.upper := by
  have h := fmt_toUpper bytes p
  rw [fmt_eq_fmtD, fmt_eq_fmtD] at h
  simpa using h

lemma joinComma_toUpper (p : Option Nat) (ls : List (List (Fin 256))) :
    (joinComma (ls.map fun b => fmtD b p Case.lower)).map Char.toUpper
      = joinComma (ls.map fun b => fmtD b p Case.upper) := by
  induction ls with
  | nil => rfl
  | cons b t ih =>
    cases t with
    | nil => simpa [joinComma] using fmtD_toUpper b p
    | cons c t =>
      simp only [List.map_cons] at ih ⊢
      simp [joinComma, fmtD_toUpper, ih, (by decide : Char.toUpper ',' = ','),
        (by decide : Char.toUpper ' ' = ' ')]

lemma hexList_toUpper (ls : List (List (Fin 256))) (p : Option Nat) :
    (hexListLower ls p).map (List.map Char.toUpper) = hexListUpper ls p := by
  rw [hexListLower_eq, hexListUpper_eq, Option.map_some']
  refine congrArg some ?_
  simp [joinComma_toUpper, (by decide : Char.toUpper '[' = '['),
    (by decide : Char.toUpper ']' = ']')]

lemma hexListLower_cons (c : List (Fin 256)) (t : List (List (Fin 256)))
    (p : Option Nat) :
    hexListLower (c :: t) p
      = some ('[' :: (fmtD c p Case.lower ++ restChain p Case.lower t) ++ [']']) := by
  simp [hexListLower, fmt_eq_fmtD, listRest_eq]

lemma hexListUpper_cons (c : List (Fin 256)) (t : List (List (Fin 256)))
    (p : Option Nat) :
    hexListUpper (c :: t) p
      = some ('[' :: (fmtD c p Case.upper ++ restChain p Case.upper t) ++ [']']) := by
  simp [hexListUpper, fmt_eq_fmtD, listRest_eq]

lemma cons_decomp (cs : Case) (p : Option Nat) {b c : List (Fin 256)}
    {t : List (List (Fin 256))} (h : b ∈ c :: t) :
    ∃ pre post, '[' :: (fmtD c p cs ++ restChain p cs t) ++ ([']'] : List Char)
        = pre ++ fmtD b p cs ++ post := by
  rcases List.mem_cons.mp h with rfl | h2
  · exact ⟨['['], restChain p cs t ++ [']'], by simp⟩
  · obtain ⟨pre, post, hp⟩ := restChain_mem p cs h2
    exact ⟨'[' :: fmtD c p cs ++ pre, post ++ [']'], by simp [hp]⟩

/-- Claim C1: in the general elision branch (`2 * len(b) > p > 2`) the digit
budget `p - 2` splits into `right = (p-2)/2` (floor) and
`left = (p-2) - right` (so `right ≤ left`, left taking the extra unit), and
the output is exactly: the first `left/2` bytes as two hex digits each; if
`left` is odd, the high nibble of `bytes[left/2]`; the ellipsis `..`; if
`right` is odd, the low nibble of the byte `right/2 + 1` positions from the
end; and the last `right/2` bytes as two hex digits each, in original order —
the closed form `elideChars`. -/
theorem c1_elision_layout (bytes : List (Fin 256)) (p : Nat) (cs : Case)
    (h2 : 2 < p) (h1 : p < 2 * bytes.length) :
    (p - 2) / 2 ≤ (p - 2) - (p - 2) / 2
      ∧ fmt bytes (some p) cs = some (elideChars bytes p cs) :=
  ⟨by omega, fmt_elide bytes p cs h2 h1⟩

/-- Witness for C1 at `b = [09 0a 0b 0c 0d 0e 0f]`, `p = 7` (renders
`090..0f`). -/
theorem c1_witness :
    (2 < 7 ∧ 7 < 2 * ([9, 10, 11, 12, 13, 14, 15] : List (Fin 256)).length)
      ∧ ((7 - 2) / 2 ≤ (7 - 2) - (7 - 2) / 2
        ∧ fmt [9, 10, 11, 12, 13, 14, 15] (some 7) Case.lower
            = some (elideChars [9, 10, 11, 12, 13, 14, 15] 7 Case.lower)) :=
  ⟨⟨by decide, by decide⟩,
    c1_elision_layout [9, 10, 11, 12, 13, 14, 15] 7 Case.lower (by decide)
      (by decide)⟩

/-- Claim C2: when `2 * len(b) ≤ p` (ties included), the output is the full
two-digit-per-byte expansion, and the empty sequence renders as the empty
string for every precision. -/
theorem c2_full_render (bytes : List (Fin 256)) (p : Nat) (cs : Case)
    (h : 2 * bytes.length ≤ p) :
    fmt bytes (some p) cs = some ((bytes.map (fmt_byte cs)).flatten)
      ∧ ∀ q : Nat, fmt ([] : List (Fin 256)) (some q) cs = some [] := by
  constructor
  · simp only [fmt, Option.getD_some, if_pos h]
  · intro q
    simp [fmt]

/-- Witness for C2 at `b = [09 0a 0b]`, `p = 10` (renders `090a0b` in full). -/
theorem c2_witness :
    (2 * ([9, 10, 11] : List (Fin 256)).length ≤ 10)
      ∧ (fmt [9, 10, 11] (some 10) Case.lower
          = some ((([9, 10, 11] : List (Fin 256)).map (fmt_byte Case.lower)).flatten)
        ∧ ∀ q : Nat, fmt ([] : List (Fin 256)) (some q) Case.lower = some []) :=
  ⟨by decide, c2_full_render [9, 10, 11] 10 Case.lower (by decide)⟩

/-- Claim C3: in the general elision branch the output has length exactly
`p`, contains exactly one occurrence of `..` as a contiguous substring, and
has hex-digit-only characters on both sides of the ellipsis. -/
theorem c3_elision_shape (bytes : List (Fin 256)) (p : Nat) (cs : Case)
    (h2 : 2 < p) (h1 : p < 2 * bytes.length) :
    ∃ out A B, fmt bytes (some p) cs = some out
      ∧ out.length = p
      ∧ countOcc ELLIPSIS out = 1
      ∧ out = A ++ ELLIPSIS ++ B
      ∧ (∀ c ∈ A, isHexDigitChar c = true)
      ∧ (∀ c ∈ B, isHexDigitChar c = true) := by
  obtain ⟨A, B, hdec, hALen, hBLen, hA, hB⟩ := elide_decomp bytes p cs h2 h1
  have hAdot : '.' ∉ A := fun hx => isHex_ne_dot (hA _ hx) rfl
  have hBdot : '.' ∉ B := fun hx => isHex_ne_dot (hB _ hx) rfl
  refine ⟨elideChars bytes p cs, A, B, fmt_elide bytes p cs h2 h1, ?_, ?_,
    hdec, hA, hB⟩
  · rw [hdec]
    simp only [List.length_append, ellipsis_length, hALen, hBLen]
    omega
  · rw [hdec]
    exact countOcc_singleton A B hAdot hBdot

/-- Witness for C3 at `b = [01 02 03 04 05]`, `p = 6` (renders `01..05`). -/
theorem c3_witness :
    (2 < 6 ∧ 6 < 2 * ([1, 2, 3, 4, 5] : List (Fin 256)).length)
      ∧ (∃ out A B, fmt [1, 2, 3, 4, 5] (some 6) Case.lower = some out
        ∧ out.length = 6
        ∧ countOcc ELLIPSIS out = 1
        ∧ out = A ++ ELLIPSIS ++ B
        ∧ (∀ c ∈ A, isHexDigitChar c = true)
        ∧ (∀ c ∈ B, isHexDigitChar c = true)) :=
  ⟨⟨by decide, by decide⟩,
    c3_elision_shape [1, 2, 3, 4, 5] 6 Case.lower (by decide) (by decide)⟩

/-- Claim C4: in the general elision branch every byte access of `fmt` is in
range — `left/2 + right/2 ≤ len`, the odd-left index `left/2` is `< len`, the
odd-right index `len - right/2 - 1` exists (`right/2 + 1 ≤ len`) — and the
routine never fails. -/
theorem c4_no_out_of_range (bytes : List (Fin 256)) (p : Nat) (cs : Case)
    (h1 : 2 * bytes.length > p) (h2 : 2 < p) :
    ((p - 2) - (p - 2) / 2) / 2 + ((p - 2) / 2) / 2 ≤ bytes.length
      ∧ ((p - 2) - (p - 2) / 2) / 2 < bytes.length
      ∧ ((p - 2) / 2) / 2 + 1 ≤ bytes.length
      ∧ (fmt bytes (some p) cs).isSome = true :=
  ⟨by omega, by omega, by omega, fmt_isSome bytes (some p) cs⟩

/-- Witness for C4 at `b = [01 02 03 04 05]`, `p = 5`. -/
theorem c4_witness :
    (2 * ([1, 2, 3, 4, 5] : List (Fin 256)).length > 5 ∧ 2 < 5)
      ∧ (((5 - 2) - (5 - 2) / 2) / 2 + ((5 - 2) / 2) / 2
            ≤ ([1, 2, 3, 4, 5] : List (Fin 256)).length
        ∧ ((5 - 2) - (5 - 2) / 2) / 2 < ([1, 2, 3, 4, 5] : List (Fin 256)).length
        ∧ ((5 - 2) / 2) / 2 + 1 ≤ ([1, 2, 3, 4, 5] : List (Fin 256)).length
        ∧ (fmt [1, 2, 3, 4, 5] (some 5) Case.upper).isSome = true) :=
  ⟨⟨by decide, by decide⟩,
    c4_no_out_of_range [1, 2, 3, 4, 5] 5 Case.upper (by decide) (by decide)⟩

/-- Claim C5: when `2 * len(b) > p` and `p ≤ 2`, the output is exactly the
first `p` characters of `..`, and the bytes are not consulted: any other
byte sequence in this branch yields the identical output. -/
theorem c5_ellipsis_dominates (bytes : List (Fin 256)) (p : Nat) (cs : Case)
    (h1 : p < 2 * bytes.length) (h2 : p ≤ 2) :
    fmt bytes (some p) cs = some (ELLIPSIS.take p)
      ∧ ∀ bytes2 : List (Fin 256), p < 2 * bytes2.length →
          fmt bytes2 (some p) cs = fmt bytes (some p) cs := by
  have key : ∀ b : List (Fin 256), p < 2 * b.length →
      fmt b (some p) cs = some (ELLIPSIS.take p) := by
    intro b hb
    have hnb : ¬ (2 * b.length ≤ p) := by omega
    simp only [fmt, Option.getD_some, if_neg hnb, ellipsis_length, if_pos h2]
  exact ⟨key bytes h1, fun b2 hb2 => (key b2 hb2).trans (key bytes h1).symm⟩

/-- Witness for C5 at `b = [01]`, `p = 1` (renders `.`). -/
theorem c5_witness :
    (1 < 2 * ([1] : List (Fin 256)).length ∧ 1 ≤ 2)
      ∧ (fmt [1] (some 1) Case.lower = some (ELLIPSIS.take 1)
        ∧ ∀ bytes2 : List (Fin 256), 1 < 2 * bytes2.length →
            fmt bytes2 (some 1) Case.lower = fmt [1] (some 1) Case.lower) :=
  ⟨⟨by decide, by decide⟩,
    c5_ellipsis_dominates [1] 1 Case.lower (by decide) (by decide)⟩

/-- Claim C6 counterexample: the claim quantifies over all `b` with no
condition relating `p` to `len(b)`, but at `b = [01]`, `p = 2` branch 1
applies (`2 * 1 ≤ 2`) and the render is `01`, not `..`. -/
theorem c6_cex :
    fmt [(1 : Fin 256)] (some 2) Case.lower ≠ some (ELLIPSIS.take 2) := by
  decide

/-- Claim C6 amended: for `p ≤ 2` the rendering equals the first `p`
characters of `..` provided the full rendering does not fit
(`2 * len(b) > p`). -/
theorem c6_take_ellipsis (bytes : List (Fin 256)) (p : Nat) (cs : Case)
    (h2 : p ≤ 2) (h1 : p < 2 * bytes.length) :
    fmt bytes (some p) cs = some (ELLIPSIS.take p) := by
  have hnb : ¬ (2 * bytes.length ≤ p) := by omega
  simp only [fmt, Option.getD_some, if_neg hnb, ellipsis_length, if_pos h2]

/-- Witness for amended C6 at `b = [01 23]`, `p = 2` (renders `..`). -/
theorem c6_witness :
    (2 ≤ 2 ∧ 2 < 2 * ([1, 35] : List (Fin 256)).length)
      ∧ fmt [1, 35] (some 2) Case.upper = some (ELLIPSIS.take 2) :=
  ⟨⟨by decide, by decide⟩,
    c6_take_ellipsis [1, 35] 2 Case.upper (by decide) (by decide)⟩

/-- Claim C7 counterexample: with caller precision 4, the list rendering of
the single element `[01 02 03 04 05 06]` is `[0..6]` — the element was
rendered at the forwarded precision 4, not at its own default precision 10,
which would have given `[0102..0506]`. -/
theorem c7_cex :
    hexListLower [[1, 2, 3, 4, 5, 6]] (some 4)
      ≠ some ('[' :: fmtD [1, 2, 3, 4, 5, 6] (some DEFAULT_PRECISION) Case.lower
          ++ [']']) := by
  decide

/-- Claim C7 amended: both list impls pass the same `Formatter` to every
element, so each element of the list appears in the output rendered at the
list call's own precision `p`; only when the caller supplies no precision
does each element fall back to the default precision 10. -/
theorem c7_precision_forwarded (ls : List (List (Fin 256))) (p : Option Nat)
    (b : List (Fin 256)) (h : b ∈ ls) :
    (∃ pre post, hexListLower ls p = some (pre ++ fmtD b p Case.lower ++ post))
      ∧ (∃ pre post,
          hexListUpper ls p = some (pre ++ fmtD b p Case.upper ++ post))
      ∧ fmt b none Case.lower = fmt b (some DEFAULT_PRECISION) Case.lower := by
  cases ls with
  | nil => cases h
  | cons c t =>
    obtain ⟨preL, postL, hL⟩ := cons_decomp Case.lower p h
    obtain ⟨preU, postU, hU⟩ := cons_decomp Case.upper p h
    exact ⟨⟨preL, postL, by rw [hexListLower_cons, hL]⟩,
      ⟨preU, postU, by rw [hexListUpper_cons, hU]⟩, rfl⟩

/-- Witness for amended C7 at the list `[[ab], [cd]]`, element `[cd]`,
caller precision 3. -/
theorem c7_witness :
    (([205] : List (Fin 256)) ∈ [[171], [205]])
      ∧ ((∃ pre post, hexListLower [[171], [205]] (some 3)
            = some (pre ++ fmtD [205] (some 3) Case.lower ++ post))
        ∧ (∃ pre post, hexListUpper [[171], [205]] (some 3)
            = some (pre ++ fmtD [205] (some 3) Case.upper ++ post))
        ∧ fmt [205] none Case.lower
            = fmt [205] (some DEFAULT_PRECISION) Case.lower) :=
  ⟨by decide, c7_precision_forwarded [[171], [205]] (some 3) [205] (by decide)⟩

/-- Claim C8: for every collection and both cases, the list rendering is the
elements joined by `", "` with no trailing separator, wrapped in `[` and `]`;
the empty collection gives `[]` and a singleton gives `[` + element + `]`. -/
theorem c8_list_brackets (ls : List (List (Fin 256))) (p : Option Nat) :
    hexListLower ls p
        = some ('[' :: joinComma (ls.map fun b => fmtD b p Case.lower) ++ [']'])
      ∧ hexListUpper ls p
        = some ('[' :: joinComma (ls.map fun b => fmtD b p Case.upper) ++ [']'])
      ∧ hexListLower ([] : List (List (Fin 256))) p = some ['[', ']']
      ∧ ∀ b : List (Fin 256), hexListLower [b] p
          = some ('[' :: fmtD b p Case.lower ++ [']']) := by
  refine ⟨hexListLower_eq ls p, hexListUpper_eq ls p, rfl, fun b => ?_⟩
  have h := hexListLower_eq [b] p
  simpa [joinComma] using h

/-- Claim C9: the upper-case rendering equals the lower-case rendering mapped
through ASCII upper-casing, for both the single-sequence renderer and the
list renderers (so the two differ only in the case of alphabetic hex
digits). -/
theorem c9_case_agreement (bytes : List (Fin 256))
    (ls : List (List (Fin 256))) (p : Option Nat) :
    (fmt bytes p Case.lower).map (List.map Char.toUpper)
        = fmt bytes p Case.upper
      ∧ (hexListLower ls p).map (List.map Char.toUpper) = hexListUpper ls p :=
  ⟨fmt_toUpper bytes p, hexList_toUpper ls p⟩

/-- Claim C10: whenever the general elision branch runs, at least one hex
digit stands before the ellipsis (`left ≥ 1` — the output starts with a hex
digit, never with `..`), the digits shown `p - 2` are at most
`2 * len(b) - 3`, and the bytes touched at both ends leave at least one full
byte of the input entirely unrendered. -/
theorem c10_nondegenerate (bytes : List (Fin 256)) (p : Nat) (cs : Case)
    (h2 : 2 < p) (h1 : p < 2 * bytes.length) :
    1 ≤ (p - 2) - (p - 2) / 2
      ∧ p - 2 ≤ 2 * bytes.length - 3
      ∧ ((p - 2) - (p - 2) / 2) / 2 + ((p - 2) - (p - 2) / 2) % 2
          + (((p - 2) / 2) / 2 + ((p - 2) / 2) % 2) < bytes.length
      ∧ ∃ c rest, fmt bytes (some p) cs = some (c :: rest)
          ∧ isHexDigitChar c = true := by
  refine ⟨by omega, by omega, by omega, ?_⟩
  obtain ⟨A, B, hdec, hALen, hBLen, hA, hB⟩ := elide_decomp bytes p cs h2 h1
  have hfe := fmt_elide bytes p cs h2 h1
  cases A with
  | nil =>
    simp at hALen
    omega
  | cons a A2 =>
    refine ⟨a, A2 ++ ELLIPSIS ++ B, ?_, hA a (List.mem_cons_self a A2)⟩
    rw [hfe, hdec]
    simp [List.append_assoc]

/-- Witness for C10 at `b = [01 02]`, `p = 3` (renders `0..`). -/
theorem c10_witness :
    (2 < 3 ∧ 3 < 2 * ([1, 2] : List (Fin 256)).length)
      ∧ (1 ≤ (3 - 2) - (3 - 2) / 2
        ∧ 3 - 2 ≤ 2 * ([1, 2] : List (Fin 256)).length - 3
        ∧ ((3 - 2) - (3 - 2) / 2) / 2 + ((3 - 2) - (3 - 2) / 2) % 2
            + (((3 - 2) / 2) / 2 + ((3 - 2) / 2) % 2)
              < ([1, 2] : List (Fin 256)).length
        ∧ ∃ c rest, fmt [1, 2] (some 3) Case.upper = some (c :: rest)
            ∧ isHexDigitChar c = true) :=
  ⟨⟨by decide, by decide⟩,
    c10_nondegenerate [1, 2] 3 Case.upper (by decide) (by decide)⟩

end HexFmt
